import Mathlib

/-!
Shallow embedding of the spotify_representative_sampler pipeline
(`src/app.py`, `src/get_representative_playlist.py`).

Python strings are modelled as Lean `String` (a wrapper around `List Char`);
the Python string operations used by the code (`str.strip`, `str.lower`,
`str.split(",")`, `in`, `", ".join`, `int(...)`) are embedded as executable
functions over the underlying character lists.
-/

/-- Python whitespace characters recognised by `str.strip()`. -/
def pySpaceChar (c : Char) : Bool :=
  c = ' ' || c = '\t' || c = '\n' || c = '\r' || c = '\u000B' || c = '\u000C'

/-- Python `str.strip()` on a character list. -/
def stripChars (l : List Char) : List Char :=
  ((l.dropWhile pySpaceChar).reverse.dropWhile pySpaceChar).reverse

/-- Python `str.strip()`. -/
def pyStrip (s : String) : String := ⟨stripChars s.data⟩

/-- Python `str.lower()` (ASCII case folding, as used on the data here). -/
def pyLower (s : String) : String := ⟨s.data.map Char.toLower⟩

/-- Python truthiness of a string: non-empty. -/
def pyTruthy (s : String) : Bool := !s.data.isEmpty

/-- Separator-joining of character lists, as in Python `sep.join(parts)`. -/
def joinSep (sep : List Char) : List (List Char) → List Char
  | [] => []
  | [x] => x
  | x :: y :: t => x ++ sep ++ joinSep sep (y :: t)

/-- Python `sep.join(strings)`. -/
def pyJoin (sep : String) (l : List String) : String :=
  ⟨joinSep sep.data (l.map String.data)⟩

/-- Substring test on character lists: Python's `kw in text`. -/
def infixB (kw : List Char) : List Char → Bool
  | [] => kw.isEmpty
  | s@(_ :: t) => kw.isPrefixOf s || infixB kw t

/-- Python `sub in s` for strings. -/
def pyIn (sub s : String) : Bool := infixB sub.data s.data

/-- Helper for Python `s.split(",")`: accumulate the current chunk (reversed). -/
def splitCommaAux : List Char → List Char → List (List Char)
  | acc, [] => [acc.reverse]
  | acc, c :: rest =>
    if c = ',' then acc.reverse :: splitCommaAux [] rest
    else splitCommaAux (c :: acc) rest

/-- Python `s.split(",")`. -/
def pySplitComma (s : String) : List String :=
  (splitCommaAux [] s.data).map String.mk

/-- Numeric value of a decimal digit character. -/
def charDigit (c : Char) : Nat := c.toNat - 48

/-- Value of a list of decimal digit characters. -/
def decimalVal (ds : List Char) : Nat :=
  ds.foldl (fun n c => n * 10 + charDigit c) 0

/-- Python `int(s)`, returning `none` where Python raises `ValueError`:
optional surrounding whitespace, optional sign, then a non-empty digit run. -/
def pyParseInt (s : String) : Option Int :=
  match stripChars s.data with
  | '+' :: ds =>
    if !ds.isEmpty && ds.all Char.isDigit then some ((decimalVal ds : Int)) else none
  | '-' :: ds =>
    if !ds.isEmpty && ds.all Char.isDigit then some (-(decimalVal ds : Int)) else none
  | ds =>
    if !ds.isEmpty && ds.all Char.isDigit then some ((decimalVal ds : Int)) else none

/-- A track record as built by `get_liked_tracks` (src/app.py lines 83-94,
with `genres` attached by the enrichment loop, lines 109-113). -/
structure Track where
  name : String
  artists : List String
  artist_ids : List String
  album : String
  release_date : String
  release_year : String
  uri : String
  url : String
  genres : List String
deriving DecidableEq

/-- Keyword normalization from `filter_tracks_by_keywords` (src/app.py line 119):
`[kw.lower().strip() for kw in keywords if kw.strip()]`. -/
def normalizeKeywords (keywords : List String) : List String :=
  (keywords.filter (fun kw => pyTruthy (pyStrip kw))).map (fun kw => pyStrip (pyLower kw))

/-- The lowercased search string of a track (src/app.py lines 122-131):
name, artist names, album and genre tags joined with single spaces. -/
def searchText (track : Track) : String :=
  pyLower (track.name ++ " " ++ pyJoin " " track.artists ++ " " ++ track.album
    ++ " " ++ pyJoin " " track.genres)

/-- Function `filter_tracks_by_keywords` (src/app.py lines 118-134). -/
def filter_tracks_by_keywords (tracks : List Track) (keywords : List String) :
    List Track :=
  let keywords_lower := normalizeKeywords keywords
  tracks.filter (fun track => keywords_lower.any (fun kw => pyIn kw (searchText track)))

/-- A concrete track used to instantiate theorems with hypotheses. -/
def egTrack : Track :=
  { name := "Blue in Green", artists := ["Miles Davis"], artist_ids := ["id1"],
    album := "Kind of Blue", release_date := "1959-08-17", release_year := "1959",
    uri := "spotify:track:abc", url := "https://example/abc", genres := ["jazz"] }

/-- C2: for every track list `T` and keyword list `K` whose normalization is
non-empty, `filter_tracks_by_keywords T K` is a sublist of `T`: every returned
track occurs in `T`, each input occurrence is used at most once, and the
relative order of `T` is preserved (`List.Sublist` captures exactly this). -/
theorem filter_tracks_sublist (T : List Track) (K : List String)
    (hK : normalizeKeywords K ≠ []) :
    (filter_tracks_by_keywords T K).Sublist T ∧
    ∀ t ∈ filter_tracks_by_keywords T K, t ∈ T := by
  refine ⟨List.filter_sublist T, ?_⟩
  intro t ht
  exact (List.filter_sublist T).mem ht

/-- C2 witness: the sublist property at a concrete track list and keyword list
with non-empty normalization. -/
theorem filter_tracks_sublist_witness :
    normalizeKeywords ["jazz"] ≠ [] ∧
    ((filter_tracks_by_keywords [egTrack] ["jazz"]).Sublist [egTrack] ∧
      ∀ t ∈ filter_tracks_by_keywords [egTrack] ["jazz"], t ∈ [egTrack]) :=
  ⟨by decide, filter_tracks_sublist [egTrack] ["jazz"] (by decide)⟩

/-- C3: when every keyword is empty or whitespace-only after trimming
(including the empty keyword list), `filter_tracks_by_keywords` returns `[]`:
the normalized keyword list is empty, so no track matches. -/
theorem filter_tracks_empty_keywords (T : List Track) (K : List String)
    (hK : ∀ kw ∈ K, pyStrip kw = "") :
    filter_tracks_by_keywords T K = [] := by
  have hnorm : normalizeKeywords K = [] := by
    unfold normalizeKeywords
    have : K.filter (fun kw => pyTruthy (pyStrip kw)) = [] := by
      apply List.filter_eq_nil_iff.mpr
      intro kw hkw
      rw [hK kw hkw]
      decide
    rw [this]
    rfl
  unfold filter_tracks_by_keywords
  rw [hnorm]
  simp [List.any]

/-- C3 witness: concrete whitespace-only keywords yield the empty result. -/
theorem filter_tracks_empty_keywords_witness :
    (∀ kw ∈ ["  ", "", "\t"], pyStrip kw = "") ∧
    filter_tracks_by_keywords [egTrack] ["  ", "", "\t"] = [] :=
  ⟨by decide, filter_tracks_empty_keywords [egTrack] ["  ", "", "\t"] (by decide)⟩

/-- C10: the keyword filter is idempotent: filtering an already filtered list
with the same keywords changes nothing, since acceptance of a track depends
only on its own fields and the normalized keywords. -/
theorem filter_tracks_idempotent (T : List Track) (K : List String) :
    filter_tracks_by_keywords (filter_tracks_by_keywords T K) K =
      filter_tracks_by_keywords T K := by
  unfold filter_tracks_by_keywords
  rw [List.filter_filter]
  simp

/-- C9: the keyword match runs over the single joined search string, so a
keyword can match across a field boundary: here the normalized keyword
occurs in no individual field (name, any artist, album, any genre) of the
track, yet the filter accepts the track. -/
theorem filter_matches_across_fields :
    ∃ (t : Track) (kw : String),
      normalizeKeywords [kw] = [kw] ∧
      filter_tracks_by_keywords [t] [kw] = [t] ∧
      pyIn kw (pyLower t.name) = false ∧
      (∀ a ∈ t.artists, pyIn kw (pyLower a) = false) ∧
      pyIn kw (pyLower t.album) = false ∧
      (∀ g ∈ t.genres, pyIn kw (pyLower g) = false) := by
  refine ⟨{ name := "ab", artists := ["cd"], artist_ids := [], album := "x",
            release_date := "", release_year := "", uri := "u", url := "w",
            genres := [] }, "b c", ?_, ?_, ?_, ?_, ?_, ?_⟩ <;> decide


/-- One step model of `random.sample`: with the incoming random choices
`rng`, repeatedly pick the element of the remaining pool at position
`rng.headD 0 % pool.length` and remove it. Any sequence of distinct-position
picks (a sample without replacement) is realisable by a choice of `rng`;
`random.sample(tracks, n)` is this driven by the process pseudo-random
stream. The `getD` default is never used: the index is below the length. -/
def sampleAux {α : Type} : Nat → List α → List Nat → List α
  | 0, _, _ => []
  | _ + 1, [], _ => []
  | k + 1, x :: xs, rng =>
    (x :: xs).getD (rng.headD 0 % (xs.length + 1)) x ::
      sampleAux k ((x :: xs).eraseIdx (rng.headD 0 % (xs.length + 1))) (rng.drop 1)

/-- Function `select_representative_subset` (src/app.py lines 137-143), with the
randomness of `random.sample` supplied as an explicit stream of choices. -/
def select_representative_subset {α : Type} (tracks : List α) (n : Int)
    (rng : List Nat) : List α :=
  if n ≤ 0 then []
  else if (tracks.length : Int) ≤ n then tracks
  else sampleAux n.toNat tracks rng

theorem getElem_cons_eraseIdx_perm {α : Type} :
    ∀ (l : List α) (i : Nat) (h : i < l.length),
      (l[i] :: l.eraseIdx i).Perm l := by
  intro l
  induction l with
  | nil => intro i h; simp at h
  | cons x xs ih =>
    intro i h
    cases i with
    | zero => simp [List.eraseIdx]
    | succ j =>
      have hj : j < xs.length := by simpa using h
      have h1 : (xs[j] :: x :: xs.eraseIdx j).Perm (x :: xs[j] :: xs.eraseIdx j) :=
        List.Perm.swap _ _ _
      have h2 : (x :: xs[j] :: xs.eraseIdx j).Perm (x :: xs) :=
        List.Perm.cons x (ih j hj)
      simpa [List.eraseIdx_cons_succ] using h1.trans h2

theorem sampleAux_length {α : Type} :
    ∀ (k : Nat) (pool : List α) (rng : List Nat), k ≤ pool.length →
      (sampleAux k pool rng).length = k := by
  intro k
  induction k with
  | zero => intro pool rng _; rfl
  | succ m ih =>
    intro pool rng h
    match pool with
    | [] => simp at h
    | x :: xs =>
      have hle : m ≤ ((x :: xs).eraseIdx (rng.headD 0 % (xs.length + 1))).length := by
        rw [List.length_eraseIdx]
        split <;> simp only [List.length_cons] at h ⊢ <;> omega
      simp only [sampleAux, List.length_cons]
      rw [ih _ _ hle]

theorem sampleAux_multiset_le {α : Type} :
    ∀ (k : Nat) (pool : List α) (rng : List Nat),
      (↑(sampleAux k pool rng) : Multiset α) ≤ ↑pool := by
  intro k
  induction k with
  | zero => intro pool rng; simp [sampleAux]
  | succ m ih =>
    intro pool rng
    match pool with
    | [] => simp [sampleAux]
    | x :: xs =>
      have hi : rng.headD 0 % (xs.length + 1) < (x :: xs).length := by
        simpa using Nat.mod_lt (rng.headD 0) (Nat.succ_pos xs.length)
      have hgd : (x :: xs).getD (rng.headD 0 % (xs.length + 1)) x =
          (x :: xs)[rng.headD 0 % (xs.length + 1)] := List.getD_eq_getElem _ _ hi
      have hperm := getElem_cons_eraseIdx_perm (x :: xs) _ hi
      simp only [sampleAux, hgd, ← Multiset.cons_coe]
      calc ((x :: xs)[rng.headD 0 % (xs.length + 1)] ::ₘ
              ↑(sampleAux m ((x :: xs).eraseIdx (rng.headD 0 % (xs.length + 1))) (rng.drop 1)))
          ≤ (x :: xs)[rng.headD 0 % (xs.length + 1)] ::ₘ
              ↑((x :: xs).eraseIdx (rng.headD 0 % (xs.length + 1))) :=
            Multiset.cons_le_cons _ (ih _ _)
        _ = ↑((x :: xs)[rng.headD 0 % (xs.length + 1)] ::
              (x :: xs).eraseIdx (rng.headD 0 % (xs.length + 1))) := Multiset.cons_coe _ _
        _ = ↑(x :: xs) := Multiset.coe_eq_coe.mpr hperm

theorem sampleAux_reaches {α : Type} [DecidableEq α] :
    ∀ (t T : List α), (↑t : Multiset α) ≤ ↑T →
      ∃ rng, sampleAux t.length T rng = t := by
  intro t
  induction t with
  | nil => intro T _; exact ⟨[], rfl⟩
  | cons x t' ih =>
    intro T h
    have hxT : x ∈ T := by
      have hx : x ∈ (↑(x :: t') : Multiset α) := by simp
      simpa using Multiset.mem_of_le h hx
    match T with
    | [] => simp at hxT
    | y :: ys =>
      have hidx : (y :: ys).indexOf x < (y :: ys).length :=
        List.indexOf_lt_length.mpr hxT
      have hidx' : (y :: ys).indexOf x < ys.length + 1 := by simpa using hidx
      have hget : (y :: ys)[(y :: ys).indexOf x] = x := List.getElem_indexOf hidx
      have hperm : (x :: (y :: ys).eraseIdx ((y :: ys).indexOf x)).Perm (y :: ys) := by
        have hp := getElem_cons_eraseIdx_perm (y :: ys) ((y :: ys).indexOf x) hidx
        rwa [hget] at hp
      have ht' : (↑t' : Multiset α) ≤ ↑((y :: ys).eraseIdx ((y :: ys).indexOf x)) := by
        have h2 := h
        rw [← Multiset.cons_coe, show (↑(y :: ys) : Multiset α) =
          x ::ₘ ↑((y :: ys).eraseIdx ((y :: ys).indexOf x)) by
            rw [Multiset.cons_coe]; exact (Multiset.coe_eq_coe.mpr hperm).symm] at h2
        exact (Multiset.cons_le_cons_iff x).mp h2
      obtain ⟨rng', hrng'⟩ := ih _ ht'
      refine ⟨(y :: ys).indexOf x :: rng', ?_⟩
      have hmod : ((y :: ys).indexOf x :: rng').headD 0 % (ys.length + 1) =
          (y :: ys).indexOf x := by
        simp [Nat.mod_eq_of_lt hidx']
      have hgd : (y :: ys).getD ((y :: ys).indexOf x) y = x := by
        rw [List.getD_eq_getElem _ _ hidx]
        exact hget
      show sampleAux (t'.length + 1) (y :: ys) _ = x :: t'
      simp only [sampleAux, hmod, List.drop_one, List.tail_cons, hgd, hrng']

/-- C1: the sampler returns `[]` for `n ≤ 0`; returns the whole input
unchanged in order when `len(T) ≤ n`; and when `0 < n < len(T)` returns, for
every random stream, exactly `n` elements drawn from `T` without taking any
occurrence twice (the result is a sub-multiset of `T`); moreover every
`n`-element sample without replacement from `T` is realised by some random
stream, the order of the result being unconstrained. -/
theorem select_representative_subset_spec {α : Type} [DecidableEq α]
    (T : List α) (n : Int) (rng : List Nat) :
    (n ≤ 0 → select_representative_subset T n rng = []) ∧
    ((T.length : Int) ≤ n → select_representative_subset T n rng = T) ∧
    (0 < n → n < (T.length : Int) →
      (select_representative_subset T n rng).length = n.toNat ∧
      (↑(select_representative_subset T n rng) : Multiset α) ≤ ↑T) ∧
    (0 < n → n < (T.length : Int) →
      ∀ t : List α, (↑t : Multiset α) ≤ ↑T → (t.length : Int) = n →
        ∃ rng', select_representative_subset T n rng' = t) := by
  refine ⟨?_, ?_, ?_, ?_⟩
  · intro h
    simp [select_representative_subset, h]
  · intro h
    by_cases h0 : n ≤ 0
    · have hT0 : T.length = 0 := by omega
      have hT : T = [] := List.length_eq_zero.mp hT0
      subst hT
      simp [select_representative_subset, h0]
    · simp [select_representative_subset, h0, h]
  · intro h0 hlt
    have hn0 : ¬ n ≤ 0 := by omega
    have hnle : ¬ (T.length : Int) ≤ n := by omega
    simp only [select_representative_subset, if_neg hn0, if_neg hnle]
    constructor
    · apply sampleAux_length
      omega
    · exact sampleAux_multiset_le _ _ _
  · intro h0 hlt t hle hlen
    have hn0 : ¬ n ≤ 0 := by omega
    have hnle : ¬ (T.length : Int) ≤ n := by omega
    have hlen' : t.length = n.toNat := by omega
    obtain ⟨rng', hrng'⟩ := sampleAux_reaches t T hle
    refine ⟨rng', ?_⟩
    simp only [select_representative_subset, if_neg hn0, if_neg hnle, ← hlen', hrng']

/-- C1 witness: the three regimes at concrete inputs: `n = -1` yields `[]`;
`n = 5` on a 2-element list returns it unchanged; `n = 2` on a 3-element
list yields 2 elements forming a sub-multiset of the input, and the concrete
sample `[3, 1]` is reached by some stream. -/
theorem select_representative_subset_spec_witness :
    select_representative_subset [1, 2, 3] (-1) [0] = [] ∧
    select_representative_subset [4, 5] 5 [0] = [4, 5] ∧
    ((select_representative_subset [1, 2, 3] 2 [1, 1]).length = 2 ∧
      (↑(select_representative_subset [1, 2, 3] 2 [1, 1]) : Multiset Nat) ≤ ↑[1, 2, 3]) ∧
    (∃ rng', select_representative_subset [1, 2, 3] 2 rng' = [3, 1]) := by
  refine ⟨?_, ?_, ?_, ?_⟩
  · exact (select_representative_subset_spec [1, 2, 3] (-1) [0]).1 (by decide)
  · exact (select_representative_subset_spec [4, 5] 5 [0]).2.1 (by decide)
  · exact (select_representative_subset_spec [1, 2, 3] 2 [1, 1]).2.2.1 (by decide) (by decide)
  · exact (select_representative_subset_spec [1, 2, 3] 2 [1, 1]).2.2.2 (by decide) (by decide)
      [3, 1] (by decide) (by decide)

/-- Function `chunker` (src/app.py lines 99-101) at the batch size 50 it is called
with: partition a list into consecutive chunks of at most 50 elements. -/
def chunker {α : Type} : List α → List (List α)
  | [] => []
  | l@(_ :: _) => l.take 50 :: chunker (l.drop 50)
termination_by l => l.length
decreasing_by subst_vars; simp [List.length_drop]; omega

theorem chunker_flatten {α : Type} (l : List α) : (chunker l).flatten = l := by
  match l with
  | [] => simp [chunker]
  | x :: xs =>
    simp only [chunker, List.flatten_cons]
    rw [chunker_flatten ((x :: xs).drop 50)]
    exact List.take_append_drop _ _
termination_by l.length
decreasing_by simp [List.length_drop]; omega

/-- A single insertion `artist_genre_map[id] = genres` modelled as a
functional update of the map. -/
def mapUpd (m : String → Option (List String)) (k : String) (v : List String) :
    String → Option (List String) :=
  fun q => if q = k then some v else m q

/-- The Artist-Genre Map built by src/app.py lines 97-106: the remote
catalog is `catalog : artist id → genre tags`; each batch lookup records
`artist["id"] ↦ artist.get("genres", [])` for every id of the batch. -/
def buildGenreMap (catalog : String → List String) (ids : List String) :
    String → Option (List String) :=
  (chunker ids).foldl
    (fun m batch => batch.foldl (fun m' a => mapUpd m' a (catalog a)) m)
    (fun _ => none)

theorem foldl_mapUpd (catalog : String → List String) :
    ∀ (ids : List String) (m : String → Option (List String)) (q : String),
      ids.foldl (fun m' a => mapUpd m' a (catalog a)) m q =
        if q ∈ ids then some (catalog q) else m q := by
  intro ids
  induction ids with
  | nil => intro m q; simp
  | cons a rest ih =>
    intro m q
    simp only [List.foldl_cons, ih]
    by_cases h1 : q ∈ rest
    · simp [h1, List.mem_cons]
    · by_cases h2 : q = a <;> simp [h1, h2, mapUpd, List.mem_cons]

theorem buildGenreMap_eq (catalog : String → List String) (ids : List String)
    (q : String) :
    buildGenreMap catalog ids q = if q ∈ ids then some (catalog q) else none := by
  have hfl : buildGenreMap catalog ids =
      ids.foldl (fun m' a => mapUpd m' a (catalog a)) (fun _ => none) := by
    unfold buildGenreMap
    rw [← chunker_flatten ids, List.foldl_flatten, chunker_flatten ids]
  rw [hfl, foldl_mapUpd]

/-- Python `set.add`-style insertion keeping first-insertion order. -/
def setAdd (acc : List String) (g : String) : List String :=
  if g ∈ acc then acc else acc ++ [g]

/-- Python `set.update(new)` on the list model of a set. -/
def setExtend (acc new : List String) : List String := new.foldl setAdd acc

theorem mem_setAdd (g x : String) (acc : List String) :
    g ∈ setAdd acc x ↔ g ∈ acc ∨ g = x := by
  unfold setAdd
  split
  · next h => constructor
              · exact fun hg => Or.inl hg
              · rintro (hg | rfl)
                · exact hg
                · exact h
  · simp

theorem mem_setExtend (g : String) :
    ∀ (new acc : List String), g ∈ setExtend acc new ↔ g ∈ acc ∨ g ∈ new := by
  intro new
  induction new with
  | nil => intro acc; simp [setExtend]
  | cons x rest ih =>
    intro acc
    show g ∈ setExtend (setAdd acc x) rest ↔ _
    rw [ih, mem_setAdd]
    simp [List.mem_cons]
    tauto

/-- The set `all_artist_ids` (src/app.py lines 67, 77): all artist ids
referenced by the tracks, in first-insertion order. -/
def collectIds (tracks : List Track) : List String :=
  tracks.foldl (fun acc t => setExtend acc t.artist_ids) []

/-- The value `genres_for_track` (src/app.py lines 110-113): the union over the
track's artist ids of the map's entries, an id absent from the map
contributing `[]` (`artist_genre_map.get(artist_id, [])`). -/
def genresFor (m : String → Option (List String)) (ids : List String) :
    List String :=
  ids.foldl (fun acc a => setExtend acc ((m a).getD [])) []

theorem mem_genresFor_aux (m : String → Option (List String)) (g : String) :
    ∀ (ids : List String) (acc : List String),
      g ∈ ids.foldl (fun acc a => setExtend acc ((m a).getD [])) acc ↔
        g ∈ acc ∨ ∃ a ∈ ids, g ∈ (m a).getD [] := by
  intro ids
  induction ids with
  | nil => intro acc; simp
  | cons x rest ih =>
    intro acc
    simp only [List.foldl_cons, ih, mem_setExtend]
    constructor
    · rintro ((h | h) | ⟨a, ha, hg⟩)
      · exact Or.inl h
      · exact Or.inr ⟨x, List.mem_cons_self x rest, h⟩
      · exact Or.inr ⟨a, List.mem_cons_of_mem x ha, hg⟩
    · rintro (h | ⟨a, ha, hg⟩)
      · exact Or.inl (Or.inl h)
      · rcases List.mem_cons.mp ha with rfl | ha'
        · exact Or.inl (Or.inr hg)
        · exact Or.inr ⟨a, ha', hg⟩

theorem mem_genresFor (m : String → Option (List String)) (ids : List String)
    (g : String) :
    g ∈ genresFor m ids ↔ ∃ a ∈ ids, g ∈ (m a).getD [] := by
  unfold genresFor
  rw [mem_genresFor_aux]
  simp

/-- Attaching genres to one track (src/app.py line 113). -/
def enrichOne (m : String → Option (List String)) (t : Track) : Track :=
  { t with genres := genresFor m t.artist_ids }

/-- The enrichment phase of `get_liked_tracks` (src/app.py lines 96-115):
build the Artist-Genre Map from the collected ids in batches of 50, then
attach to every track the union of its artists' genre sets. -/
def enrichTracks (catalog : String → List String) (tracks : List Track) :
    List Track :=
  tracks.map (enrichOne (buildGenreMap catalog (collectIds tracks)))

theorem collectIds_eq_nil_aux :
    ∀ (l : List Track) (acc : List String), (∀ t ∈ l, t.artist_ids = []) →
      l.foldl (fun acc t => setExtend acc t.artist_ids) acc = acc := by
  intro l
  induction l with
  | nil => intro acc _; rfl
  | cons t rest ih =>
    intro acc h
    simp only [List.foldl_cons, h t (List.mem_cons_self t rest)]
    exact ih _ (fun s hs => h s (List.mem_cons_of_mem t hs))

/-- C4: after enrichment every track's `genres` holds exactly the union,
over the track's `artist_ids`, of the Artist-Genre Map's sets, an id absent
from the map contributing nothing; and when no track references any artist
id, the batch list is empty (zero lookup calls) and every enriched track's
`genres` is empty. -/
theorem enrichTracks_spec (catalog : String → List String) (tracks : List Track) :
    (∀ t ∈ tracks, ∀ g : String,
      g ∈ (enrichOne (buildGenreMap catalog (collectIds tracks)) t).genres ↔
        ∃ a ∈ t.artist_ids, g ∈ (buildGenreMap catalog (collectIds tracks) a).getD []) ∧
    ((∀ t ∈ tracks, t.artist_ids = []) →
      chunker (collectIds tracks) = [] ∧
      ∀ t ∈ enrichTracks catalog tracks, t.genres = []) := by
  constructor
  · intro t _ g
    exact mem_genresFor _ _ g
  · intro h
    have hc : collectIds tracks = [] := collectIds_eq_nil_aux tracks [] h
    refine ⟨by rw [hc]; simp [chunker], ?_⟩
    intro t ht
    obtain ⟨s, hs, rfl⟩ := List.mem_map.mp ht
    show genresFor _ s.artist_ids = []
    rw [h s hs]
    rfl

/-- A copy of the sample track referencing no artists. -/
def egTrackNoIds : Track := { egTrack with artist_ids := [] }

/-- C4 witness: a concrete catalog and track lists instantiating both parts:
a track whose artist contributes its genre set, and an artist-free library
producing zero batches and empty genres. -/
theorem enrichTracks_spec_witness :
    ("jazz" ∈ (enrichOne (buildGenreMap
        (fun a => if a = "a1" then ["jazz", "bop"] else []) (collectIds [egTrack]))
        egTrack).genres ↔
      ∃ a ∈ egTrack.artist_ids, "jazz" ∈ ((buildGenreMap
        (fun a => if a = "a1" then ["jazz", "bop"] else []) (collectIds [egTrack])) a).getD []) ∧
    (chunker (collectIds [egTrackNoIds]) = [] ∧
      ∀ t ∈ enrichTracks (fun _ => ["x"]) [egTrackNoIds], t.genres = []) :=
  ⟨(enrichTracks_spec (fun a => if a = "a1" then ["jazz", "bop"] else [])
      [egTrack]).1 egTrack (by decide) "jazz",
    (enrichTracks_spec (fun _ => ["x"]) [egTrackNoIds]).2 (by decide)⟩

/-- Quoting test of Python `csv`'s QUOTE_MINIMAL (excel dialect): a field is
quoted iff it contains the delimiter, the quote character, or a character of
the line terminator. -/
def needsQuote (f : List Char) : Bool :=
  f.any (fun c => c = ',' || c = '"' || c = '\r' || c = '\n')

/-- Doubling of quote characters inside a quoted field (doublequote mode). -/
def escapeQuotes : List Char → List Char
  | [] => []
  | c :: rest =>
    if c = '"' then '"' :: '"' :: escapeQuotes rest else c :: escapeQuotes rest

/-- One encoded field of Python `csv.writer` output. -/
def encodeField (f : List Char) : List Char :=
  if needsQuote f then '"' :: (escapeQuotes f ++ ['"']) else f

/-- One encoded record: comma-joined encoded fields plus the `\r\n`
line terminator of the excel dialect. -/
def encodeRecord (r : List (List Char)) : List Char :=
  joinSep [','] (r.map encodeField) ++ ['\r', '\n']

/-- The writer's byte stream for a list of records (`writer.writerow` per
record into an in-memory buffer, src/app.py lines 173-186). -/
def renderCsv : List (List (List Char)) → List Char
  | [] => []
  | r :: rs => encodeRecord r ++ renderCsv rs

mutual

/-- Standard CSV record scanner, start of a field: an opening quote starts a
quoted field, anything else an unquoted field. -/
def scanStart (s : List Char) : Option (List (List Char) × List Char) :=
  match s with
  | '"' :: rest => scanQuo [] rest
  | t => scanUnq [] t
termination_by (s.length, 1)

/-- Scanner inside an unquoted field (`acc` holds the field reversed). -/
def scanUnq (acc : List Char) (s : List Char) : Option (List (List Char) × List Char) :=
  match s with
  | [] => none
  | c :: rest =>
    if c = ',' then (scanStart rest).map (fun p => (acc.reverse :: p.1, p.2))
    else if c = '\r' then
      if rest.head? = some '\n' then some ([acc.reverse], rest.tail) else none
    else scanUnq (c :: acc) rest
termination_by (s.length, 0)

/-- Scanner inside a quoted field: a doubled quote is a literal quote, a
single quote closes the field. -/
def scanQuo (acc : List Char) (s : List Char) : Option (List (List Char) × List Char) :=
  match s with
  | [] => none
  | c :: rest =>
    if c = '"' then
      if rest.head? = some '"' then scanQuo ('"' :: acc) rest.tail
      else scanPost acc.reverse rest
    else scanQuo (c :: acc) rest
termination_by (s.length, 0)

/-- Scanner right after a closing quote: expects the delimiter or the
record terminator. -/
def scanPost (f : List Char) (s : List Char) : Option (List (List Char) × List Char) :=
  match s with
  | ',' :: rest => (scanStart rest).map (fun p => (f :: p.1, p.2))
  | '\r' :: '\n' :: rest => some ([f], rest)
  | _ => none
termination_by (s.length, 0)

end

/-- Fuel-indexed CSV stream parser: records until the input is exhausted. -/
def parseCsvFuel : Nat → List Char → Option (List (List (List Char)))
  | 0, s => if s.isEmpty then some [] else none
  | fuel + 1, s =>
    if s.isEmpty then some []
    else
      match scanStart s with
      | none => none
      | some p => (parseCsvFuel fuel p.2).map (fun rs => p.1 :: rs)

/-- A standard CSV parser honouring the writer's quoting rules. -/
def parseCsv (s : List Char) : Option (List (List (List Char))) :=
  parseCsvFuel s.length s

theorem scanStart_quote (rest : List Char) :
    scanStart ('"' :: rest) = scanQuo [] rest := by
  simp [scanStart]

theorem scanStart_unq (s : List Char) (h : s.head? ≠ some '"') :
    scanStart s = scanUnq [] s := by
  cases s with
  | nil => simp [scanStart]
  | cons c r =>
    have hc : c ≠ '"' := by
      intro hceq
      exact h (by rw [hceq]; rfl)
    rw [scanStart.eq_def]
    split
    · next rest heq =>
      injection heq with h1 _
      exact (hc h1).elim
    · rfl

theorem needsQuote_false_spec (f : List Char) (h : needsQuote f = false) :
    ∀ c ∈ f, c ≠ ',' ∧ c ≠ '"' ∧ c ≠ '\r' ∧ c ≠ '\n' := by
  intro c hc
  have h2 := (List.any_eq_false.mp h) c hc
  simp at h2
  tauto

theorem scanUnq_safe :
    ∀ (f acc rest : List Char), (∀ c ∈ f, c ≠ ',' ∧ c ≠ '\r') →
      scanUnq acc (f ++ rest) = scanUnq (f.reverse ++ acc) rest := by
  intro f
  induction f with
  | nil => intro acc rest _; simp
  | cons c f' ih =>
    intro acc rest h
    have hc := h c (List.mem_cons_self c f')
    show scanUnq acc (c :: (f' ++ rest)) = _
    simp only [scanUnq]
    rw [if_neg hc.1, if_neg hc.2]
    rw [ih (c :: acc) rest (fun d hd => h d (List.mem_cons_of_mem c hd))]
    simp [List.append_assoc]

theorem scanQuo_step_dquote (acc r : List Char) :
    scanQuo acc ('"' :: '"' :: r) = scanQuo ('"' :: acc) r := by
  rw [scanQuo.eq_def]
  simp

theorem scanQuo_step_close (acc r : List Char) (h : r.head? ≠ some '"') :
    scanQuo acc ('"' :: r) = scanPost acc.reverse r := by
  rw [scanQuo.eq_def]
  simp [h]

theorem scanQuo_step_char (acc : List Char) (c : Char) (r : List Char) (h : c ≠ '"') :
    scanQuo acc (c :: r) = scanQuo (c :: acc) r := by
  rw [scanQuo.eq_def]
  simp [h]

theorem scanUnq_step_comma (acc r : List Char) :
    scanUnq acc (',' :: r) = (scanStart r).map (fun p => (acc.reverse :: p.1, p.2)) := by
  rw [scanUnq.eq_def]
  simp

theorem scanUnq_step_crlf (acc r : List Char) :
    scanUnq acc ('\r' :: '\n' :: r) = some ([acc.reverse], r) := by
  rw [scanUnq.eq_def]
  simp

theorem scanPost_step_comma (f : List Char) (r : List Char) :
    scanPost f (',' :: r) = (scanStart r).map (fun p => (f :: p.1, p.2)) := by
  rw [scanPost.eq_def]
  rfl

theorem scanPost_step_crlf (f : List Char) (r : List Char) :
    scanPost f ('\r' :: '\n' :: r) = some ([f], r) := by
  rw [scanPost.eq_def]
  rfl

theorem scanQuo_escape :
    ∀ (f acc rest : List Char), rest.head? ≠ some '"' →
      scanQuo acc (escapeQuotes f ++ '"' :: rest) = scanPost (acc.reverse ++ f) rest := by
  intro f
  induction f with
  | nil =>
    intro acc rest h
    show scanQuo acc ('"' :: rest) = _
    rw [scanQuo_step_close acc rest h]
    simp
  | cons c f' ih =>
    intro acc rest h
    by_cases hc : c = '"'
    · subst hc
      rw [show escapeQuotes ('"' :: f') ++ '"' :: rest =
            '"' :: '"' :: (escapeQuotes f' ++ '"' :: rest) from by simp [escapeQuotes]]
      rw [scanQuo_step_dquote, ih ('"' :: acc) rest h]
      simp
    · rw [show escapeQuotes (c :: f') ++ '"' :: rest =
            c :: (escapeQuotes f' ++ '"' :: rest) from by simp [escapeQuotes, hc]]
      rw [scanQuo_step_char acc c _ hc, ih (c :: acc) rest h]
      simp

theorem encodeField_head_not_quote (f : List Char) (hq : needsQuote f = false)
    (rest : List Char) (hr : rest.head? ≠ some '"') :
    (f ++ rest).head? ≠ some '"' := by
  cases f with
  | nil => simpa using hr
  | cons c f' =>
    have hc := (needsQuote_false_spec _ hq) c (List.mem_cons_self c f')
    simpa using hc.2.1

theorem scanStart_record :
    ∀ (fs : List (List Char)), fs ≠ [] → ∀ rest : List Char,
      scanStart (joinSep [','] (fs.map encodeField) ++ '\r' :: '\n' :: rest) =
        some (fs, rest) := by
  intro fs
  induction fs with
  | nil => intro h; exact absurd rfl h
  | cons f fs' ih =>
    intro _ rest
    cases fs' with
    | nil =>
      show scanStart (encodeField f ++ '\r' :: '\n' :: rest) = some ([f], rest)
      by_cases hq : needsQuote f
      · rw [show encodeField f = '"' :: (escapeQuotes f ++ ['"']) from by
          simp [encodeField, hq]]
        rw [show ('"' :: (escapeQuotes f ++ ['"'])) ++ '\r' :: '\n' :: rest =
          '"' :: (escapeQuotes f ++ '"' :: ('\r' :: '\n' :: rest)) from by simp]
        rw [scanStart_quote, scanQuo_escape f [] _ (by simp)]
        simp [scanPost_step_crlf]
      · have hqf : needsQuote f = false := by simpa using hq
        rw [show encodeField f = f from by simp [encodeField, hqf]]
        rw [scanStart_unq _ (encodeField_head_not_quote f hqf _ (by simp))]
        rw [scanUnq_safe f [] _
          (fun c hc => ⟨((needsQuote_false_spec f hqf) c hc).1,
            ((needsQuote_false_spec f hqf) c hc).2.2.1⟩)]
        rw [scanUnq_step_crlf]
        simp
    | cons f2 fs'' =>
      show scanStart ((encodeField f ++ [','] ++
        joinSep [','] ((f2 :: fs'').map encodeField)) ++ '\r' :: '\n' :: rest) =
        some (f :: f2 :: fs'', rest)
      rw [show (encodeField f ++ [','] ++
          joinSep [','] ((f2 :: fs'').map encodeField)) ++ '\r' :: '\n' :: rest =
          encodeField f ++ ',' ::
            (joinSep [','] ((f2 :: fs'').map encodeField) ++ '\r' :: '\n' :: rest) from by
        simp]
      by_cases hq : needsQuote f
      · rw [show encodeField f ++ ',' ::
            (joinSep [','] ((f2 :: fs'').map encodeField) ++ '\r' :: '\n' :: rest) =
            '"' :: (escapeQuotes f ++ '"' :: (',' ::
              (joinSep [','] ((f2 :: fs'').map encodeField) ++ '\r' :: '\n' :: rest))) from by
          simp [encodeField, hq]]
        rw [scanStart_quote, scanQuo_escape f [] _ (by simp)]
        rw [show ([] : List Char).reverse ++ f = f from by simp]
        rw [scanPost_step_comma, ih (by simp) rest]
        rfl
      · have hqf : needsQuote f = false := by simpa using hq
        rw [show encodeField f = f from by simp [encodeField, hqf]]
        rw [scanStart_unq _ (encodeField_head_not_quote f hqf _ (by simp))]
        rw [scanUnq_safe f [] _
          (fun c hc => ⟨((needsQuote_false_spec f hqf) c hc).1,
            ((needsQuote_false_spec f hqf) c hc).2.2.1⟩)]
        rw [scanUnq_step_comma, ih (by simp) rest]
        simp

theorem encodeRecord_append_ne_nil (a b : List Char) :
    ((a ++ ['\r', '\n']) ++ b).isEmpty = false := by
  cases a <;> simp

theorem parseCsvFuel_render :
    ∀ (rows : List (List (List Char))) (fuel : Nat), (∀ r ∈ rows, r ≠ []) →
      rows.length ≤ fuel → parseCsvFuel fuel (renderCsv rows) = some rows := by
  intro rows
  induction rows with
  | nil =>
    intro fuel _ _
    cases fuel <;> simp [renderCsv, parseCsvFuel]
  | cons r rs ih =>
    intro fuel h hfuel
    match fuel with
    | 0 => simp at hfuel
    | m + 1 =>
      show parseCsvFuel (m + 1) (encodeRecord r ++ renderCsv rs) = _
      rw [parseCsvFuel]
      rw [if_neg (by
        rw [show encodeRecord r ++ renderCsv rs =
          (joinSep [','] (r.map encodeField) ++ ['\r', '\n']) ++ renderCsv rs from rfl]
        simp [encodeRecord_append_ne_nil])]
      rw [show encodeRecord r ++ renderCsv rs =
        joinSep [','] (r.map encodeField) ++ '\r' :: '\n' :: renderCsv rs from by
        simp [encodeRecord]]
      rw [scanStart_record r (h r (List.mem_cons_self r rs)) (renderCsv rs)]
      show (parseCsvFuel m (renderCsv rs)).map (fun rs => r :: rs) = some (r :: rs)
      rw [ih m (fun q hq => h q (List.mem_cons_of_mem r hq)) (by simpa using hfuel)]
      rfl

theorem renderCsv_length_ge :
    ∀ (rows : List (List (List Char))), rows.length ≤ (renderCsv rows).length := by
  intro rows
  induction rows with
  | nil => simp [renderCsv]
  | cons r rs ih =>
    show rs.length + 1 ≤ (encodeRecord r ++ renderCsv rs).length
    rw [List.length_append]
    have : 2 ≤ (encodeRecord r).length := by
      simp [encodeRecord]
    omega

theorem parseCsv_renderCsv (rows : List (List (List Char)))
    (h : ∀ r ∈ rows, r ≠ []) : parseCsv (renderCsv rows) = some rows :=
  parseCsvFuel_render rows _ h (renderCsv_length_ge rows)

/-- The fixed column schema of `tracks_to_csv_bytes` (src/app.py lines 163-172). -/
def csvFieldnames : List String :=
  ["name", "artists", "album", "release_date", "release_year", "genres", "url", "uri"]

/-- Lookup of `csv.DictWriter` rows: the value stored under a field name, the
empty string when absent (`restval`). -/
def dictGet : List (String × String) → String → String
  | [], _ => ""
  | (k, v) :: rest, q => if q = k then v else dictGet rest q

/-- The row dictionary built for one track (src/app.py lines 176-185). -/
def rowOf (t : Track) : List (String × String) :=
  [("name", t.name), ("artists", pyJoin ", " t.artists), ("album", t.album),
    ("release_date", t.release_date), ("release_year", t.release_year),
    ("genres", pyJoin ", " t.genres), ("url", t.url), ("uri", t.uri)]

/-- The rows `csv.DictWriter` writes: the header (`writeheader`) followed by
each track's values extracted in `fieldnames` order (`writerow`). -/
def writtenRows (tracks : List Track) : List (List String) :=
  csvFieldnames :: tracks.map (fun t => csvFieldnames.map (fun k => dictGet (rowOf t) k))

/-- Function `tracks_to_csv_bytes` (src/app.py lines 160-187): the UTF-8 encoded CSV
text, modelled at character level. -/
def tracks_to_csv_bytes (tracks : List Track) : List Char :=
  renderCsv ((writtenRows tracks).map (fun r => r.map String.data))

/-- C5: parsing the serializer's output with a standard CSV parser that
honours the writer's quoting rules reproduces exactly the rows that were
written, i.e. every field value round-trips, including names containing
embedded commas, quotes or newlines. -/
theorem tracks_to_csv_roundtrip (tracks : List Track) :
    parseCsv (tracks_to_csv_bytes tracks) =
      some ((writtenRows tracks).map (fun r => r.map String.data)) := by
  apply parseCsv_renderCsv
  intro r hr
  obtain ⟨r0, hr0, rfl⟩ := List.mem_map.mp hr
  rcases List.mem_cons.mp hr0 with rfl | hmem
  · simp [csvFieldnames]
  · obtain ⟨t, _, rfl⟩ := List.mem_map.mp hmem
    simp [csvFieldnames]

/-- C6: the serializer emits exactly the header row
`name, artists, album, release_date, release_year, genres, url, uri`
followed by one data row per track whose columns are, in that order, the
track name, the artists joined by a comma-space, the album, the release
date, the release year, the genres joined by a comma-space, the url and the
uri; the byte stream is the CSV rendering of exactly these rows. -/
theorem tracks_to_csv_schema (tracks : List Track) :
    writtenRows tracks =
      ["name", "artists", "album", "release_date", "release_year", "genres",
        "url", "uri"] ::
        tracks.map (fun t => [t.name, pyJoin ", " t.artists, t.album,
          t.release_date, t.release_year, pyJoin ", " t.genres, t.url, t.uri]) ∧
    tracks_to_csv_bytes tracks =
      renderCsv ((["name", "artists", "album", "release_date", "release_year",
          "genres", "url", "uri"] ::
        tracks.map (fun t => [t.name, pyJoin ", " t.artists, t.album,
          t.release_date, t.release_year, pyJoin ", " t.genres, t.url, t.uri])).map
        (fun r => r.map String.data)) := by
  have hrow : (fun t => csvFieldnames.map (fun k => dictGet (rowOf t) k)) =
      (fun t : Track => [t.name, pyJoin ", " t.artists, t.album,
        t.release_date, t.release_year, pyJoin ", " t.genres, t.url, t.uri]) :=
    funext (fun t => rfl)
  have h1 : writtenRows tracks =
      ["name", "artists", "album", "release_date", "release_year", "genres",
        "url", "uri"] ::
        tracks.map (fun t => [t.name, pyJoin ", " t.artists, t.album,
          t.release_date, t.release_year, pyJoin ", " t.genres, t.url, t.uri]) := by
    unfold writtenRows
    rw [hrow]
    rfl
  exact ⟨h1, by unfold tracks_to_csv_bytes; rw [h1]⟩

/-- Keyword parsing of the request boundary (src/app.py line 235):
`[kw.strip() for kw in raw_keywords.split(",") if kw.strip()]`. -/
def parseKeywords (raw : String) : List String :=
  ((pySplitComma raw).filter (fun kw => pyTruthy (pyStrip kw))).map pyStrip

/-- The default playlist name f-string (src/app.py line 261):
`f"Rep sample ({len(selected_tracks)}) - {', '.join(keywords)}"`. -/
def defaultPlaylistName (count : Nat) (keywords : List String) : String :=
  "Rep sample (" ++ toString count ++ ") - " ++ pyJoin ", " keywords

/-- Outcome of `create_playlist_route`: either the no-tracks-matched page
(no playlist is created and the serializer is not invoked), or a created
playlist with its name, the serializer's bytes, and the selected tracks. -/
inductive RouteResult where
  | noTracks (filteredCount : Nat)
  | created (playlistName : String) (csv : List Char) (selected : List Track)
deriving DecidableEq

/-- The playlist name of a `created` outcome. -/
def RouteResult.nameOf : RouteResult → Option String
  | .noTracks _ => none
  | .created n _ _ => some n

/-- The core logic of `create_playlist_route` (src/app.py lines 226-283)
after authentication and the library fetch: keyword parsing, count parsing
with the `try/except ValueError` fallback to 0, filter, sample, the
empty-selection early return, and the playlist-name fallback (the override
is read pre-stripped, line 233). -/
def create_playlist_route (liked : List Track)
    (rawKeywords nStr playlistNameInput : String) (rng : List Nat) : RouteResult :=
  let keywords := parseKeywords rawKeywords
  let n := (pyParseInt nStr).getD 0
  let filtered := filter_tracks_by_keywords liked keywords
  let selected := select_representative_subset filtered n rng
  if selected.isEmpty then .noTracks filtered.length
  else
    let playlist_name :=
      if pyTruthy (pyStrip playlistNameInput) then pyStrip playlistNameInput
      else defaultPlaylistName selected.length keywords
    .created playlist_name (tracks_to_csv_bytes selected) selected

/-- C8: when the sample-size input fails to parse as an integer, the count
falls back to zero: the sampler yields the empty selection and the route
returns the no-tracks outcome (no playlist created, serializer not
invoked), reporting the filtered count. -/
theorem malformed_count_spec (liked : List Track) (raw nStr pn : String)
    (rng : List Nat) (h : pyParseInt nStr = none) :
    select_representative_subset (filter_tracks_by_keywords liked (parseKeywords raw))
      ((pyParseInt nStr).getD 0) rng = [] ∧
    create_playlist_route liked raw nStr pn rng =
      .noTracks (filter_tracks_by_keywords liked (parseKeywords raw)).length := by
  have hn : (pyParseInt nStr).getD 0 = 0 := by rw [h]; rfl
  have hsel : select_representative_subset
      (filter_tracks_by_keywords liked (parseKeywords raw)) ((pyParseInt nStr).getD 0) rng
      = [] := by
    rw [hn]
    simp [select_representative_subset]
  refine ⟨hsel, ?_⟩
  simp only [create_playlist_route]
  rw [hsel]
  rfl

/-- C8 witness: a non-numeric count on a concrete library yields the
no-tracks outcome. -/
theorem malformed_count_spec_witness :
    pyParseInt "abc" = none ∧
    (select_representative_subset
      (filter_tracks_by_keywords [egTrack] (parseKeywords "jazz"))
      ((pyParseInt "abc").getD 0) [] = [] ∧
    create_playlist_route [egTrack] "jazz" "abc" "" [] =
      .noTracks (filter_tracks_by_keywords [egTrack] (parseKeywords "jazz")).length) :=
  ⟨by decide, malformed_count_spec [egTrack] "jazz" "abc" "" [] (by decide)⟩

/-- C7 counterexample: with no override, keywords `"Jazz"` and one sampled
track, the created playlist is named `"Rep sample (1) - Jazz"`: the
keywords in the name are trimmed but not lowercased, so the name differs
from the claimed `"Rep sample (<count>) - <filter-normalized keywords>"`
(which would be `"Rep sample (1) - jazz"`). -/
theorem default_name_not_filter_normalized :
    (create_playlist_route [egTrack] "Jazz" "1" "" []).nameOf =
      some "Rep sample (1) - Jazz" ∧
    (create_playlist_route [egTrack] "Jazz" "1" "" []).nameOf ≠
      some (defaultPlaylistName 1 (normalizeKeywords (parseKeywords "Jazz"))) := by
  constructor <;> decide

/-- C7 (amended): for every run where the playlist-name override strips to
empty and the selection is non-empty, the created playlist's name is
`"Rep sample (<count>) - <keywords>"` where `<count>` is the number of
sampled tracks and `<keywords>` is the comma-joined list of the request's
keywords after trimming and dropping empties, with their original case
preserved (not lowercased). -/
theorem route_default_name (liked : List Track) (raw nStr pn : String)
    (rng : List Nat) (hpn : pyStrip pn = "")
    (hsel : select_representative_subset
      (filter_tracks_by_keywords liked (parseKeywords raw))
      ((pyParseInt nStr).getD 0) rng ≠ []) :
    (create_playlist_route liked raw nStr pn rng).nameOf =
      some (defaultPlaylistName
        (select_representative_subset
          (filter_tracks_by_keywords liked (parseKeywords raw))
          ((pyParseInt nStr).getD 0) rng).length
        (parseKeywords raw)) := by
  have hie : (select_representative_subset
      (filter_tracks_by_keywords liked (parseKeywords raw))
      ((pyParseInt nStr).getD 0) rng).isEmpty = false := by
    cases hS : select_representative_subset
        (filter_tracks_by_keywords liked (parseKeywords raw))
        ((pyParseInt nStr).getD 0) rng with
    | nil => exact absurd hS hsel
    | cons a l => rfl
  simp only [create_playlist_route, hie, hpn]
  rfl

/-- C7 amended witness: the default name at a concrete run with no override
and one sampled track. -/
theorem route_default_name_witness :
    pyStrip "" = "" ∧
    select_representative_subset
      (filter_tracks_by_keywords [egTrack] (parseKeywords "Jazz"))
      ((pyParseInt "1").getD 0) [] ≠ [] ∧
    (create_playlist_route [egTrack] "Jazz" "1" "" []).nameOf =
      some (defaultPlaylistName
        (select_representative_subset
          (filter_tracks_by_keywords [egTrack] (parseKeywords "Jazz"))
          ((pyParseInt "1").getD 0) []).length
        (parseKeywords "Jazz")) :=
  ⟨by decide, by decide,
    route_default_name [egTrack] "Jazz" "1" "" [] (by decide) (by decide)⟩
